import Mathlib

/-!
Verification of the workflow-chain engine of the `webapp-agent-1` repository.

The module under specification is the chain-execution engine: the streaming
SSE decoder `executeCustomWorkflow`, the step-input resolution logic inside
`executeNextStep`, and the `WorkflowChainManager` orchestrator.  The embedding
below follows the full implementation in `src/unnamed/part_001` (the annotated
workflow-chain module, lines 188-662), which extends the earlier copy kept in
`src/service/workflow-chain.ts` with dual output collection and named-slot
input mapping; where both files overlap the two are identical up to comments.

JavaScript values carried in payloads are modelled by the inductive `Json`;
JavaScript objects are modelled as association lists in which a later entry
for a key overrides an earlier one (`objGet` returns the last binding), which
is extensionally the behaviour of object spread `{...a, ...b}` and of property
assignment.  Byte streams are modelled as lists of characters: the source
routes bytes through `TextDecoder.decode(value, {stream: true})`, which
reassembles code points split across chunk boundaries, so character-level
chunking is the faithful residue of byte-level chunking.
-/

namespace WChain

/-- JSON value as produced by `JSON.parse` (numbers restricted to integers;
the protocol payloads the service emits carry no fractional literals). -/
inductive Json where
  | null
  | bool (b : Bool)
  | num (n : Int)
  | str (s : String)
  | arr (xs : List Json)
  | obj (fields : List (String × Json))
deriving Repr, Inhabited

/-- A JavaScript object: association list, later entries override earlier
ones on lookup (the extensional content of object spread and assignment). -/
abbrev Obj := List (String × Json)

/-- Property lookup: the last binding for `k` wins, `none` models a property
read that yields `undefined`. -/
def objGet (o : Obj) (k : String) : Option Json :=
  o.foldl (fun acc p => if p.1 = k then some p.2 else acc) none

/-- Models `hasOwnProperty`. -/
def hasKey (o : Obj) (k : String) : Bool :=
  o.any (fun p => p.1 = k)

/-- Object spread `{...a, ...b}` (extensionally: `b` overrides `a`). -/
def mergeObj (a b : Obj) : Obj := a ++ b

/-- Property assignment `o[k] = v` (extensionally: the new binding wins). -/
def setKey (o : Obj) (k : String) (v : Json) : Obj := o ++ [(k, v)]

/-- JavaScript truthiness of a value. -/
def jtruthy : Json → Bool
  | .null => false
  | .bool b => b
  | .num n => n != 0
  | .str s => !s.isEmpty
  | .arr _ => true
  | .obj _ => true

/-- Property read `j.k` on an arbitrary value: objects look the key up,
primitives and arrays yield `undefined` for the payload keys the code reads
(`event`, `data`, `outputs`, `error`, `message`, `workflow_run_id`). -/
def jget (j : Json) (k : String) : Option Json :=
  match j with
  | .obj o => objGet o k
  | _ => none

/-- Truthiness of a possibly-`undefined` value (`undefined` is falsy). -/
def optTruthy : Option Json → Bool
  | none => false
  | some v => jtruthy v

/-- Object spread of an arbitrary value `{...j}`: objects contribute their
fields, strings and arrays contribute index-keyed entries, primitives
contribute nothing. -/
def jspread : Json → Obj
  | .obj o => o
  | .str s => s.toList.enum.map (fun p => (toString p.1, Json.str (String.mk [p.2])))
  | .arr xs => xs.enum.map (fun p => (toString p.1, p.2))
  | _ => []

theorem objGet_aux (o : Obj) (k : String) (acc : Option Json) :
    o.foldl (fun acc p => if p.1 = k then some p.2 else acc) acc
      = ((objGet o k).or acc) := by
  induction o generalizing acc with
  | nil => simp [objGet]
  | cons p ps ih =>
    simp only [objGet, List.foldl_cons] at *
    rw [ih, ih (if p.1 = k then some p.2 else none)]
    by_cases h : p.1 = k
    · cases hx : List.foldl (fun acc p => if p.1 = k then some p.2 else acc) none ps <;>
        simp [h]
    · simp [h]

theorem objGet_cons (p : String × Json) (ps : Obj) (k : String) :
    objGet (p :: ps) k = (objGet ps k).or (if p.1 = k then some p.2 else none) := by
  show List.foldl _ (if p.1 = k then some p.2 else none) ps = _
  exact objGet_aux ps k _

theorem objGet_append (a b : Obj) (k : String) :
    objGet (a ++ b) k = (objGet b k).or (objGet a k) := by
  show (a ++ b).foldl _ none = _
  rw [List.foldl_append]
  exact objGet_aux b k _

theorem objGet_mergeObj (a b : Obj) (k : String) :
    objGet (mergeObj a b) k = (objGet b k).or (objGet a k) :=
  objGet_append a b k

theorem objGet_setKey (o : Obj) (k k' : String) (v : Json) :
    objGet (setKey o k v) k' = if k = k' then some v else objGet o k' := by
  unfold setKey
  rw [objGet_append]
  by_cases h : k = k'
  · simp [objGet, h]
  · have h' : ¬ ((k, v).1 = k') := h
    simp only [objGet, List.foldl_cons, List.foldl_nil, if_neg h']
    cases objGet o k' <;> simp [h]

theorem objGet_eq_none_of_hasKey_false (o : Obj) (k : String)
    (h : hasKey o k = false) : objGet o k = none := by
  induction o with
  | nil => rfl
  | cons p ps ih =>
    simp only [hasKey, List.any_cons, Bool.or_eq_false_iff, decide_eq_false_iff_not] at h
    rw [objGet_cons, if_neg h.1, ih (by simpa [hasKey] using h.2)]
    rfl

theorem objGet_isSome_of_hasKey (o : Obj) (k : String)
    (h : hasKey o k = true) : (objGet o k).isSome := by
  induction o with
  | nil => simp [hasKey] at h
  | cons p ps ih =>
    rw [objGet_cons]
    simp only [hasKey, List.any_cons, Bool.or_eq_true, decide_eq_true_eq] at h
    rcases h with h | h
    · cases hx : objGet ps k <;> simp [h, hx]
    · have := ih (by simpa [hasKey] using h)
      cases hx : objGet ps k with
      | none => rw [hx] at this; simp at this
      | some v => simp [hx]

/-! ### Text utilities

The SSE loop in `executeCustomWorkflow` splits the accumulated buffer on
`'\n'`, keeps the trailing (possibly incomplete) line via `lines.pop()`, and
filters lines through `line.trim()` / `line.startsWith('data: ')`. -/

/-- Models `buffer.split('\n')` followed by `lines.pop() || ''`: the complete lines
and the trailing fragment (the new buffer). -/
def splitLines : List Char → List (List Char) × List Char
  | [] => ([], [])
  | c :: cs =>
    if c = '\n' then ([] :: (splitLines cs).1, (splitLines cs).2)
    else
      match splitLines cs with
      | (l :: ls, t) => ((c :: l) :: ls, t)
      | ([], t) => ([], c :: t)

/-- Whitespace recognised by the model of `String.prototype.trim`. -/
def isSpaceChar (c : Char) : Bool :=
  [' ', '\t', '\r', '\n'].contains c

/-- Models `line.trim()`. -/
def jsTrim (l : List Char) : List Char :=
  ((l.dropWhile isSpaceChar).reverse.dropWhile isSpaceChar).reverse

/-- Models `line.startsWith(p)`. -/
def startsWithChars : List Char → List Char → Bool
  | [], _ => true
  | _ :: _, [] => false
  | p :: ps, c :: cs => p == c && startsWithChars ps cs

theorem splitLines_append (x y : List Char) :
    splitLines (x ++ y) =
      ((splitLines x).1 ++ (splitLines ((splitLines x).2 ++ y)).1,
        (splitLines ((splitLines x).2 ++ y)).2) := by
  induction x with
  | nil => simp [splitLines]
  | cons c x' ih =>
    by_cases hc : c = '\n'
    · simp only [List.cons_append, splitLines, if_pos hc, List.append_eq]
      rw [ih]
    · rcases hP : splitLines x' with ⟨P1, P2⟩
      cases P1 with
      | cons l ls =>
        have ih' : splitLines (x' ++ y) =
            (l :: (ls ++ (splitLines (P2 ++ y)).1), (splitLines (P2 ++ y)).2) := by
          rw [ih, hP]; simp
        simp [splitLines, if_neg hc, hP, ih', List.cons_append]
      | nil =>
        rcases hB : splitLines (P2 ++ y) with ⟨B1, B2⟩
        have ih' : splitLines (x' ++ y) = (B1, B2) := by
          rw [ih, hP]; simp [hB]
        cases B1 with
        | cons m ms =>
          simp [splitLines, if_neg hc, hP, ih', hB, List.cons_append]
        | nil =>
          simp [splitLines, if_neg hc, hP, ih', hB, List.cons_append]

/-! ### A model of `JSON.parse`

`JSON.parse` is a platform builtin; the recursive-descent parser below models
it on the fragment of JSON the streaming protocol uses (objects, arrays,
strings with the single-character escapes, integer numerals, booleans,
`null`).  Inputs outside that fragment (fractional/exponent numerals,
`\uXXXX` escapes) are treated as parse failures, which the decoder skips. -/

/-- The character `{` (spelled via its code point). -/
def lbrace : Char := Char.ofNat 123

/-- The character `}` (spelled via its code point). -/
def rbrace : Char := Char.ofNat 125

/-- Skip JSON inter-token whitespace. -/
def skipWs : List Char → List Char := List.dropWhile isSpaceChar

def digitsToNat (ds : List Char) : Nat :=
  ds.foldl (fun n c => 10 * n + (c.toNat - 48)) 0

/-- Lookup table for the single-character string escapes of JSON. -/
def escTable : List (Char × Char) :=
  [('n', '\n'), ('t', '\t'), ('r', '\r'), ('"', '"'), ('/', '/'),
   ('b', Char.ofNat 8), ('f', Char.ofNat 12), ('\\', '\\')]

/-- The single-character string escapes of JSON. -/
def escChar (e : Char) : Option Char :=
  (escTable.find? (fun q => q.1 == e)).map (fun q => q.2)

/-- Parse a JSON string body after the opening quote, handling the
single-character escapes. -/
def parseStringBody : List Char → Option (List Char × List Char)
  | [] => none
  | c :: cs =>
    if c == '"' then some ([], cs)
    else if c == '\\' then
      match cs with
      | [] => none
      | e :: cs2 =>
        match escChar e, parseStringBody cs2 with
        | some ec, some r => some (ec :: r.1, r.2)
        | _, _ => none
    else (parseStringBody cs).map fun r => (c :: r.1, r.2)

/-- Consume an expected literal word, returning the remaining input. -/
def eatWord : List Char → List Char → Option (List Char)
  | [], rest => some rest
  | w :: ws, c :: cs => if c == w then eatWord ws cs else none
  | _ :: _, [] => none

/-- Parse an unsigned integer numeral (failing on the fractional/exponent
forms that are outside the modelled fragment). -/
def parseNat (s : List Char) : Option (Nat × List Char) :=
  let ds := s.takeWhile Char.isDigit
  let rest := s.dropWhile Char.isDigit
  if ds.isEmpty then none
  else
    match rest with
    | '.' :: _ => none
    | 'e' :: _ => none
    | 'E' :: _ => none
    | _ => some (digitsToNat ds, rest)

mutual

def parseValue : Nat → List Char → Option (Json × List Char)
  | 0, _ => none
  | Nat.succ fuel, s =>
    match skipWs s with
    | [] => none
    | c :: cs =>
      if c == lbrace then
        match skipWs cs with
        | c2 :: rest => if c2 == rbrace then some (Json.obj [], rest)
                        else (parseMembers fuel cs).map fun r => (Json.obj r.1, r.2)
        | [] => none
      else if c == '[' then
        match skipWs cs with
        | c2 :: rest => if c2 == ']' then some (Json.arr [], rest)
                        else (parseElems fuel cs).map fun r => (Json.arr r.1, r.2)
        | [] => none
      else if c == '"' then
        (parseStringBody cs).map fun r => (Json.str (String.mk r.1), r.2)
      else if c == 't' then
        (eatWord "rue".toList cs).map fun rest => (Json.bool true, rest)
      else if c == 'f' then
        (eatWord "alse".toList cs).map fun rest => (Json.bool false, rest)
      else if c == 'n' then
        (eatWord "ull".toList cs).map fun rest => (Json.null, rest)
      else if c == '-' then
        (parseNat cs).map fun r => (Json.num (-(r.1 : Int)), r.2)
      else if c.isDigit then
        (parseNat (c :: cs)).map fun r => (Json.num (r.1 : Int), r.2)
      else none

def parseMembers : Nat → List Char → Option (List (String × Json) × List Char)
  | 0, _ => none
  | Nat.succ fuel, s =>
    match skipWs s with
    | [] => none
    | c :: cs =>
      if c == '"' then
        match parseStringBody cs with
        | none => none
        | some (key, rest1) =>
          match skipWs rest1 with
          | ':' :: rest2 =>
            match parseValue fuel rest2 with
            | none => none
            | some (v, rest3) =>
              match skipWs rest3 with
              | [] => none
              | c2 :: rest4 =>
                if c2 == ',' then
                  (parseMembers fuel rest4).map fun r =>
                    ((String.mk key, v) :: r.1, r.2)
                else if c2 == rbrace then some ([(String.mk key, v)], rest4)
                else none
          | _ => none
      else none

def parseElems : Nat → List Char → Option (List Json × List Char)
  | 0, _ => none
  | Nat.succ fuel, s =>
    match parseValue fuel s with
    | none => none
    | some (v, rest) =>
      match skipWs rest with
      | [] => none
      | c :: rest2 =>
        if c == ',' then (parseElems fuel rest2).map fun r => (v :: r.1, r.2)
        else if c == ']' then some ([v], rest2)
        else none

end

/-- Model of `JSON.parse` on the protocol fragment. -/
def parseJson (s : List Char) : Option Json :=
  match parseValue (s.length + 1) s with
  | some (j, rest) => if (skipWs rest).isEmpty then some j else none
  | none => none

/-! ### Model of `String(v)` for `new Error(v)` messages -/

mutual

/-- Models `String(v)`, as used by `new Error(v)` when the thrown value is not a
string (arrays join their elements with commas; the model renders nested
`null`s literally, a fragment-level approximation). -/
def jsErrMessage : Json → String
  | .null => "null"
  | .bool true => "true"
  | .bool false => "false"
  | .num n => toString n
  | .str s => s
  | .obj _ => "[object Object]"
  | .arr xs => jsArrJoin xs

def jsArrJoin : List Json → String
  | [] => ""
  | [x] => jsErrMessage x
  | x :: y :: xs => jsErrMessage x ++ "," ++ jsArrJoin (y :: xs)

end

/-! ### The streaming decoder `executeCustomWorkflow`

`src/unnamed/part_001` lines 236-296 (identical in logic to
`src/service/workflow-chain.ts` lines 47-91).  Each complete line is guarded
by `!line.trim() || !line.startsWith('data: ')`, then handled inside a
`try { ... } catch (parseError) { console.warn(...) }` block that wraps BOTH
the `JSON.parse` call and the event `switch`; any value thrown inside the
`switch` — including the `throw new Error(data.message || ...)` of the
`'error'` case — is therefore caught by that per-line catch and turned into
a warning, after which the loop continues with the next line. -/

/-- One callback invocation made by the decoder.  `workflow_started` passes
the projected `{workflow_run_id: ...}` object, the other events pass the full
parsed payload. -/
inductive Event where
  | workflowStarted (runId : Option Json)
  | nodeStarted (payload : Json)
  | nodeFinished (payload : Json)
  | workflowFinished (payload : Json)
deriving Repr

/-- Result of handling one complete line: skip it, invoke a callback and
continue, or invoke `onWorkflowFinished` and return from the decoder. -/
inductive LineOut where
  | skip
  | emit (e : Event)
  | finish (e : Event)

def dataMarker : List Char := "data: ".toList

/-- The body of the per-line `try` block: `Except.error` models a thrown
value (a `JSON.parse` SyntaxError, the TypeError of reading `.event` on
`null`, or the explicitly thrown `Error` of the `'error'` case). -/
def lineStep (line : List Char) : Except String LineOut :=
  let jsonString := jsTrim (line.drop 6)
  if jsonString.isEmpty then .ok .skip
  else
    match parseJson jsonString with
    | none => .error "SyntaxError"
    | some .null => .error "TypeError"
    | some j =>
      match jget j "event" with
      | some (.str e) =>
        if e = "workflow_started" then
          .ok (.emit (.workflowStarted (jget j "workflow_run_id")))
        else if e = "node_started" then .ok (.emit (.nodeStarted j))
        else if e = "node_finished" then .ok (.emit (.nodeFinished j))
        else if e = "workflow_finished" then .ok (.finish (.workflowFinished j))
        else if e = "error" then
          .error (match jget j "message" with
                  | some m => if jtruthy m then jsErrMessage m
                              else "Workflow execution failed"
                  | none => "Workflow execution failed")
        else .ok .skip
      | _ => .ok .skip

/-- Handling of one complete line: the guard `continue`s outside the `try`,
and the `catch (parseError)` turns every thrown value into a skip. -/
def lineAction (line : List Char) : LineOut :=
  if (jsTrim line).isEmpty || !startsWithChars dataMarker line then .skip
  else
    match lineStep line with
    | .ok r => r
    | .error _ => .skip

/-- Process the complete lines of one chunk in order; `rest` is the event
sequence contributed by the remaining chunks, discarded when
`workflow_finished` returns from the decoder early. -/
def processLines : List (List Char) → List Event → List Event
  | [], rest => rest
  | l :: ls, rest =>
    match lineAction l with
    | .skip => processLines ls rest
    | .emit e => e :: processLines ls rest
    | .finish e => [e]

/-- The read loop of `executeCustomWorkflow` after a successful transport
phase: fold the chunks through the line buffer, producing the sequence of
callback invocations. -/
def runDecoder (buf : List Char) : List (List Char) → List Event
  | [] => []
  | c :: cs =>
    processLines (splitLines (buf ++ c)).1 (runDecoder (splitLines (buf ++ c)).2 cs)

/-- The full callback sequence of one streamed response body. -/
def decodeEvents (chunks : List (List Char)) : List Event := runDecoder [] chunks

theorem processLines_append (a b : List (List Char)) (k : List Event) :
    processLines (a ++ b) k = processLines a (processLines b k) := by
  induction a with
  | nil => rfl
  | cons l ls ih =>
    simp only [List.cons_append, processLines]
    cases lineAction l <;> simp [ih]

theorem runDecoder_merge (buf c1 c2 : List Char) (cs : List (List Char)) :
    runDecoder buf ((c1 ++ c2) :: cs) = runDecoder buf (c1 :: c2 :: cs) := by
  have hassoc : buf ++ (c1 ++ c2) = (buf ++ c1) ++ c2 := (List.append_assoc buf c1 c2).symm
  have hsp := splitLines_append (buf ++ c1) c2
  simp only [runDecoder, hassoc, hsp, processLines_append]

theorem runDecoder_join (cs : List (List Char)) :
    ∀ c buf, runDecoder buf (c :: cs) = runDecoder buf [c ++ cs.flatten] := by
  induction cs with
  | nil => intro c buf; simp [List.flatten]
  | cons c2 cs' ih =>
    intro c buf
    rw [← runDecoder_merge, ih, List.append_assoc]
    rfl

/-! ### The data model of the orchestrator

`WorkflowChainStep` / `WorkflowChain` / `ChainStepResult` from `@/types/app`
(the type module itself is not in the packaged sources; the fields are those
the spec's data model lists and the code reads and writes: identity, name,
workflow id, credential, default inputs, optional user modifications,
optional captured outputs, status, edit flag). -/

inductive StepStatus where
  | pending
  | running
  | completed
  | failed
deriving Repr, DecidableEq

structure WorkflowChainStep where
  name : String
  workflowId : String
  apiKey : String
  inputs : Obj
  allowUserEdit : Bool
  userModifications : Option Obj := none
  outputs : Option Obj := none
  id : String
  status : StepStatus
deriving Repr

/-- Models `Omit<WorkflowChainStep, 'id' | 'status'>`: the step definition a caller
hands to `createChain`. -/
structure StepDef where
  name : String
  workflowId : String
  apiKey : String
  inputs : Obj
  allowUserEdit : Bool
  userModifications : Option Obj := none
  outputs : Option Obj := none
deriving Repr

structure WorkflowChain where
  id : String
  name : String
  steps : List WorkflowChainStep
  currentStepIndex : Nat
  status : StepStatus
deriving Repr

structure ChainStepResult where
  stepId : String
  outputs : Obj
  success : Bool
deriving Repr

/-- The private registry `Map<string, WorkflowChain>` of
`WorkflowChainManager`. -/
abbrev Chains := List (String × WorkflowChain)

/-- Models `this.chains.get(id)`. -/
def mapGet (st : Chains) (cid : String) : Option WorkflowChain :=
  (st.find? (fun p => p.1 == cid)).map (fun p => p.2)

/-- Models `this.chains.set(id, chain)`: replaces the entry with that key in place,
else appends (JS `Map.set` insertion-order semantics). -/
def mapSet : Chains → String → WorkflowChain → Chains
  | [], cid, chain => [(cid, chain)]
  | p :: ps, cid, chain =>
    if p.1 == cid then (cid, chain) :: ps
    else p :: mapSet ps cid chain

/-- Models `this.chains.delete(id)` (the state part). -/
def mapDelete (st : Chains) (cid : String) : Chains :=
  st.filter (fun p => !(p.1 == cid))

theorem mapGet_mapSet_self (st : Chains) (cid : String) (chain : WorkflowChain) :
    mapGet (mapSet st cid chain) cid = some chain := by
  induction st with
  | nil => simp [mapGet, mapSet]
  | cons p ps ih =>
    by_cases hp : (p.1 == cid) = true
    · simp [mapGet, mapSet, hp]
    · have hpf : (p.1 == cid) = false := by
        cases hx : p.1 == cid
        · rfl
        · exact absurd hx hp
      simp only [mapSet, hpf, Bool.false_eq_true, if_false]
      simpa [mapGet, List.find?_cons, hpf] using ih

theorem mem_mapSet (st : Chains) (cid : String) (chain : WorkflowChain)
    (p : String × WorkflowChain) (hp : p ∈ mapSet st cid chain) :
    p = (cid, chain) ∨ p ∈ st := by
  induction st with
  | nil => simpa [mapSet] using hp
  | cons q qs ih =>
    by_cases hq : (q.1 == cid) = true
    · simp only [mapSet, hq, if_true] at hp
      rcases List.mem_cons.mp hp with h1 | h1
      · left; exact h1
      · right; exact List.mem_cons_of_mem _ h1
    · have hqf : (q.1 == cid) = false := by
        cases hx : q.1 == cid
        · rfl
        · exact absurd hx hq
      simp only [mapSet, hqf, Bool.false_eq_true, if_false] at hp
      rcases List.mem_cons.mp hp with h1 | h1
      · right; exact h1 ▸ List.mem_cons_self _ _
      · rcases ih h1 with h2 | h2
        · left; exact h2
        · right; exact List.mem_cons_of_mem _ h2

theorem mem_mapDelete (st : Chains) (cid : String)
    (p : String × WorkflowChain) (hp : p ∈ mapDelete st cid) : p ∈ st :=
  (List.mem_filter.mp hp).1

theorem mapGet_mem (st : Chains) (cid : String) (chain : WorkflowChain)
    (h : mapGet st cid = some chain) : ∃ k, (k, chain) ∈ st := by
  unfold mapGet at h
  rcases Option.map_eq_some'.mp h with ⟨q, hq, hq2⟩
  rcases q with ⟨k, v⟩
  cases hq2
  exact ⟨k, List.mem_of_find?_eq_some hq⟩

/-! ### `createChain` (part_001 lines 323-345) -/

/-- One element of `steps.map((step, index) => ({...step, id, status}))`. -/
def buildStep (id : String) (i : Nat) (s : StepDef) : WorkflowChainStep :=
  { name := s.name, workflowId := s.workflowId, apiKey := s.apiKey,
    inputs := s.inputs, allowUserEdit := s.allowUserEdit,
    userModifications := s.userModifications, outputs := s.outputs,
    id := id ++ "-step-" ++ toString i, status := .pending }

/-- Models `steps.map((step, index) => ...)`, written as the recursion on the list
with a running index. -/
def buildSteps (id : String) (i : Nat) : List StepDef → List WorkflowChainStep
  | [] => []
  | d :: ds => buildStep id i d :: buildSteps id (i + 1) ds

def createChain (st : Chains) (id nm : String) (defs : List StepDef) :
    Chains × WorkflowChain :=
  let chain : WorkflowChain :=
    { id := id, name := nm, steps := buildSteps id 0 defs,
      currentStepIndex := 0, status := .pending }
  (mapSet st id chain, chain)

/-! ### Step-input resolution (part_001 lines 385-495)

`executeNextStep` prepares `stepInputs` from the step's default inputs, the
previous step's captured outputs and the stored user modifications.  The
branch structure mirrors the source: named slots (`competitor_input` /
`current_de_op_input`), else the legacy generic slot (`second_input`) with
an `agent_output` / `current_de_op_output` preference order, else a full
merge of the previous outputs; user modifications are merged last in each
live branch.  When the step is not the first and the previous step has no
outputs object, the source only logs and leaves the defaults untouched
(user modifications included). -/

def resolveInputs (isFirst : Bool) (inputs : Obj) (prev : Option Obj)
    (mods : Option Obj) : Obj :=
  if isFirst then
    match mods with
    | some u => mergeObj inputs u
    | none => inputs
  else
    match prev with
    | none => inputs
    | some po =>
      if hasKey inputs "competitor_input" || hasKey inputs "current_de_op_input" then
        let s1 :=
          if hasKey inputs "competitor_input" && optTruthy (objGet po "agent_output")
          then setKey inputs "competitor_input" ((objGet po "agent_output").getD .null)
          else inputs
        let s2 :=
          if hasKey inputs "current_de_op_input" &&
              optTruthy (objGet po "current_de_op_output")
          then setKey s1 "current_de_op_input"
                 ((objGet po "current_de_op_output").getD .null)
          else s1
        match mods with
        | some u => mergeObj s2 u
        | none => s2
      else if hasKey inputs "second_input" then
        if optTruthy (objGet po "agent_output") then
          mergeObj (setKey inputs "second_input" ((objGet po "agent_output").getD .null))
            (mods.getD [])
        else if optTruthy (objGet po "current_de_op_output") then
          mergeObj
            (setKey inputs "second_input" ((objGet po "current_de_op_output").getD .null))
            (mods.getD [])
        else
          mergeObj inputs (mods.getD [])
      else
        mergeObj (mergeObj inputs po) (mods.getD [])

/-! ### The remote invocation and `executeNextStep` (part_001 lines 368-617)

The network is an external collaborator: each call's behaviour is a
parameter.  A `transportError` stands for a rejected `fetch`, a non-ok
status, or a missing body (the `throw`s of the transport phase); a `stream`
carries the chunked response body.  After a successful transport phase the
decoder never throws (every thrown value inside the read loop is caught by
the per-line `catch`), so decoding reduces to the callback sequence. -/

inductive InvokeResponse where
  | transportError (msg : String)
  | stream (chunks : List (List Char))

/-- Models `executeCustomWorkflow(workflowId, apiKey, inputs, callbacks)`: the
`inputs` argument is what the orchestrator posts to the remote service; the
response is the environment's parameter. -/
def executeCustomWorkflow (inputs : Obj) (resp : InvokeResponse) :
    Except String (List Event) :=
  match resp with
  | .transportError m => .error m
  | .stream chunks => .ok (decodeEvents chunks)

/-- Outcome of one `executeNextStep` call: `resolve`d with a result,
`reject`ed with an error message, or — when the stream ends without a
`workflow_finished` event — a promise that never settles. -/
inductive ExecOutcome where
  | ok (r : ChainStepResult)
  | err (msg : String)
  | hang
deriving Repr

/-- Models `onNodeFinished`: `if (eventData.data && eventData.data.outputs)
{ nodeOutputs = {...nodeOutputs, ...eventData.data.outputs} }`. -/
def nodeAccumStep (acc : Obj) (p : Json) : Obj :=
  match jget p "data" with
  | some d =>
    if jtruthy d then
      match jget d "outputs" with
      | some o => if jtruthy o then mergeObj acc (jspread o) else acc
      | none => acc
    else acc
  | none => acc

/-- Models `(eventData.data && eventData.data.outputs) ? eventData.data.outputs : \x7b\x7d`
in `onWorkflowFinished`. -/
def finishRawOutputs (p : Json) : Json :=
  match jget p "data" with
  | some d =>
    if jtruthy d then
      match jget d "outputs" with
      | some o => if jtruthy o then o else Json.obj []
      | none => Json.obj []
    else Json.obj []
  | none => Json.obj []

/-- The guard `eventData.data && eventData.data.error` in
`onWorkflowFinished`, returning the error value when it is truthy. -/
def finishErrorVal (p : Json) : Option Json :=
  match jget p "data" with
  | some d =>
    if jtruthy d then
      match jget d "error" with
      | some e => if jtruthy e then some e else none
      | none => none
    else none
  | none => none

/-- The body of `onWorkflowFinished`: fail the step and the chain and
`reject`, or store the merged outputs, advance the cursor and `resolve`. -/
def finishStep (st : Chains) (cid : String) (chainR : WorkflowChain) (idx : Nat)
    (stepR : WorkflowChainStep) (acc : Obj) (p : Json) : Chains × ExecOutcome :=
  match finishErrorVal p with
  | some e =>
    let stepF := { stepR with status := .failed }
    let chainF := { chainR with steps := chainR.steps.set idx stepF, status := .failed }
    (mapSet st cid chainF, .err (jsErrMessage e))
  | none =>
    let outputs := mergeObj acc (jspread (finishRawOutputs p))
    let stepC := { stepR with outputs := some outputs, status := .completed }
    let idx2 := idx + 1
    let chainC := { chainR with
      steps := chainR.steps.set idx stepC
      currentStepIndex := idx2
      status := if chainR.steps.length ≤ idx2 then .completed else .pending }
    (mapSet st cid chainC, .ok { stepId := stepR.id, outputs := outputs, success := true })

/-- Replay the decoder's callback sequence against the executor state:
`onNodeFinished` accumulates fragments, the first `workflow_finished` settles
the promise, and if the stream ends without one nothing ever settles and the
`running` statuses persist. -/
def runEvents (st : Chains) (cid : String) (chainR : WorkflowChain) (idx : Nat)
    (stepR : WorkflowChainStep) : Obj → List Event → Chains × ExecOutcome
  | _, [] => (mapSet st cid chainR, .hang)
  | acc, e :: es =>
    match e with
    | .nodeFinished p => runEvents st cid chainR idx stepR (nodeAccumStep acc p) es
    | .workflowFinished p => finishStep st cid chainR idx stepR acc p
    | _ => runEvents st cid chainR idx stepR acc es

/-- Models `if (userModifications) \x7b currentStep.userModifications = userModifications \x7d`. -/
def withMods (step0 : WorkflowChainStep) (mods : Option Obj) : WorkflowChainStep :=
  match mods with
  | some u => { step0 with userModifications := some u }
  | none => step0

/-- Models `chain.steps[chain.currentStepIndex - 1].outputs`, read only when the
cursor is positive. -/
def prevOutputsOf (chain : WorkflowChain) : Option Obj :=
  if chain.currentStepIndex == 0 then none
  else
    match chain.steps[chain.currentStepIndex - 1]? with
    | some prevStep => prevStep.outputs
    | none => none

/-- The `stepInputs` value `executeNextStep` passes to the remote invocation
for this chain and this (optional) user-modification argument (`none` when
the chain is unknown or the cursor is exhausted). -/
def sentInputs (st : Chains) (cid : String) (mods : Option Obj) : Option Obj :=
  match mapGet st cid with
  | none => none
  | some chain =>
    match chain.steps[chain.currentStepIndex]? with
    | none => none
    | some step0 =>
      some (resolveInputs (chain.currentStepIndex == 0) (withMods step0 mods).inputs
        (prevOutputsOf chain) (withMods step0 mods).userModifications)

def executeNextStep (st : Chains) (cid : String) (mods : Option Obj)
    (resp : InvokeResponse) : Chains × ExecOutcome :=
  match mapGet st cid with
  | none => (st, .err ("Chain " ++ cid ++ " not found"))
  | some chain =>
    match chain.steps[chain.currentStepIndex]? with
    | none => (st, .err ("No more steps in chain " ++ cid))
    | some step0 =>
      let step1 := withMods step0 mods
      let stepInputs := resolveInputs (chain.currentStepIndex == 0) step1.inputs
        (prevOutputsOf chain) step1.userModifications
      let idx := chain.currentStepIndex
      let stepR := { step1 with status := .running }
      let chainR := { chain with steps := chain.steps.set idx stepR, status := .running }
      match executeCustomWorkflow stepInputs resp with
      | .error m =>
        let stepF := { stepR with status := .failed }
        let chainF := { chainR with steps := chainR.steps.set idx stepF, status := .failed }
        (mapSet st cid chainF, .err m)
      | .ok events => runEvents st cid chainR idx stepR [] events

/-! ### Queries, reset, delete (part_001 lines 619-657) -/

def getChain (st : Chains) (cid : String) : Option WorkflowChain := mapGet st cid

def getCurrentStep (st : Chains) (cid : String) : Option WorkflowChainStep :=
  match mapGet st cid with
  | none => none
  | some chain => chain.steps[chain.currentStepIndex]?

def isChainCompleted (st : Chains) (cid : String) : Bool :=
  match mapGet st cid with
  | some chain => chain.status == .completed
  | none => false

def hasNextStep (st : Chains) (cid : String) : Bool :=
  match mapGet st cid with
  | none => false
  | some chain => decide (chain.currentStepIndex < chain.steps.length)

def resetStep (s : WorkflowChainStep) : WorkflowChainStep :=
  { s with status := .pending, outputs := none, userModifications := none }

def resetChain (st : Chains) (cid : String) : Chains :=
  match mapGet st cid with
  | none => st
  | some chain =>
    mapSet st cid { chain with
      currentStepIndex := 0
      status := .pending
      steps := chain.steps.map resetStep }

def deleteChain (st : Chains) (cid : String) : Chains × Bool :=
  (mapDelete st cid, st.any (fun p => p.1 == cid))

def getAllChains (st : Chains) : List WorkflowChain := st.map (fun p => p.2)

/-! ### Operation sequences against one `WorkflowChainManager` instance -/

inductive Op where
  | create (id nm : String) (defs : List StepDef)
  | execute (cid : String) (mods : Option Obj) (resp : InvokeResponse)
  | reset (cid : String)
  | remove (cid : String)
  | queryCurrent (cid : String)
  | queryCompleted (cid : String)
  | queryNext (cid : String)
  | queryGet (cid : String)
  | queryAll

/-- Apply one operation to the registry (queries are evaluated and their
results discarded — they return without touching the state). -/
def applyOp (st : Chains) : Op → Chains
  | .create id nm defs => (createChain st id nm defs).1
  | .execute cid mods resp => (executeNextStep st cid mods resp).1
  | .reset cid => resetChain st cid
  | .remove cid => (deleteChain st cid).1
  | .queryCurrent cid => (fun _ => st) (getCurrentStep st cid)
  | .queryCompleted cid => (fun _ => st) (isChainCompleted st cid)
  | .queryNext cid => (fun _ => st) (hasNextStep st cid)
  | .queryGet cid => (fun _ => st) (getChain st cid)
  | .queryAll => (fun _ => st) (getAllChains st)

/-- The registry after an operation sequence against a fresh manager. -/
def runOps (ops : List Op) : Chains := ops.foldl applyOp []

/-! ### Characterizing one `executeNextStep` call -/

/-- The dual output collection folded out of the callback sequence: the
`node_finished` fragments accumulated so far and the payload of the first
`workflow_finished` event, if one is observed before the stream ends. -/
def collectNodeOutputs : Obj → List Event → Obj × Option Json
  | acc, [] => (acc, none)
  | acc, e :: es =>
    match e with
    | .nodeFinished p => collectNodeOutputs (nodeAccumStep acc p) es
    | .workflowFinished p => (acc, some p)
    | _ => collectNodeOutputs acc es

theorem runEvents_eq_collect (st : Chains) (cid : String) (chainR : WorkflowChain)
    (idx : Nat) (stepR : WorkflowChainStep) :
    ∀ (events : List Event) (acc : Obj),
      runEvents st cid chainR idx stepR acc events =
        (match collectNodeOutputs acc events with
         | (_, none) => (mapSet st cid chainR, ExecOutcome.hang)
         | (a, some p) => finishStep st cid chainR idx stepR a p) := by
  intro events
  induction events with
  | nil => intro acc; rfl
  | cons e es ih =>
    intro acc
    cases e with
    | workflowStarted r =>
      simp only [runEvents, collectNodeOutputs]
      exact ih acc
    | nodeStarted p =>
      simp only [runEvents, collectNodeOutputs]
      exact ih acc
    | nodeFinished p =>
      simp only [runEvents, collectNodeOutputs]
      exact ih (nodeAccumStep acc p)
    | workflowFinished p => rfl

theorem collectNodeOutputs_none_of_noFinish (events : List Event)
    (h : ∀ p, Event.workflowFinished p ∉ events) :
    ∀ acc, (collectNodeOutputs acc events).2 = none := by
  induction events with
  | nil => intro acc; rfl
  | cons e es ih =>
    intro acc
    have hes : ∀ p, Event.workflowFinished p ∉ es := by
      intro p hp
      exact h p (List.mem_cons_of_mem _ hp)
    cases e with
    | workflowStarted r => exact ih hes acc
    | nodeStarted p => exact ih hes acc
    | nodeFinished p => exact ih hes (nodeAccumStep acc p)
    | workflowFinished p => exact absurd (List.mem_cons_self _ _) (h p)

theorem executeNextStep_spec (st : Chains) (cid : String) (mods : Option Obj)
    (resp : InvokeResponse) (chain : WorkflowChain) (step0 : WorkflowChainStep)
    (hg : mapGet st cid = some chain)
    (hs : chain.steps[chain.currentStepIndex]? = some step0) :
    executeNextStep st cid mods resp =
      (let step1 := withMods step0 mods
       let idx := chain.currentStepIndex
       let stepR := { step1 with status := StepStatus.running }
       let chainR := { chain with
         steps := chain.steps.set idx stepR
         status := StepStatus.running }
       match executeCustomWorkflow
           (resolveInputs (idx == 0) step1.inputs (prevOutputsOf chain)
             step1.userModifications) resp with
       | .error m =>
         (mapSet st cid { chainR with
            steps := chainR.steps.set idx { stepR with status := StepStatus.failed }
            status := StepStatus.failed }, ExecOutcome.err m)
       | .ok events => runEvents st cid chainR idx stepR [] events) := by
  simp only [executeNextStep, hg, hs]

/-! ### Reachability invariants of the registry -/

/-- Invariant of one stored chain: the cursor stays within bounds, the chain
is `completed` exactly when the cursor has traversed a nonempty step list,
and every step strictly before the cursor carries a captured outputs
object. -/
def chainInv (ch : WorkflowChain) : Prop :=
  ch.currentStepIndex ≤ ch.steps.length ∧
  (ch.status = StepStatus.completed ↔
    (ch.currentStepIndex = ch.steps.length ∧ ch.steps ≠ [])) ∧
  (∀ i, i < ch.currentStepIndex → ∀ s, ch.steps[i]? = some s → s.outputs ≠ none)

/-- Every chain stored in the registry satisfies `chainInv`. -/
def stInv (st : Chains) : Prop := ∀ p ∈ st, chainInv p.2

theorem chainInv_of_fresh (ch : WorkflowChain) (h0 : ch.currentStepIndex = 0)
    (hp : ch.status = StepStatus.pending) : chainInv ch := by
  refine ⟨h0 ▸ Nat.zero_le _, ?_, ?_⟩
  · rw [hp, h0]
    constructor
    · intro h; cases h
    · rintro ⟨h1, h2⟩
      exact absurd (List.length_eq_zero.mp h1.symm) h2
  · intro i hi
    rw [h0] at hi
    exact absurd hi (Nat.not_lt_zero i)

theorem stInv_mapSet (st : Chains) (cid : String) (ch : WorkflowChain)
    (h : stInv st) (hch : chainInv ch) : stInv (mapSet st cid ch) := by
  intro p hp
  rcases mem_mapSet st cid ch p hp with h1 | h1
  · rw [h1]; exact hch
  · exact h p h1

theorem stInv_create (st : Chains) (id nm : String) (defs : List StepDef)
    (h : stInv st) : stInv (createChain st id nm defs).1 :=
  stInv_mapSet _ _ _ h (chainInv_of_fresh _ rfl rfl)

theorem stInv_reset (st : Chains) (cid : String) (h : stInv st) :
    stInv (resetChain st cid) := by
  unfold resetChain
  cases hg : mapGet st cid with
  | none => exact h
  | some chain => exact stInv_mapSet _ _ _ h (chainInv_of_fresh _ rfl rfl)

theorem stInv_delete (st : Chains) (cid : String) (h : stInv st) :
    stInv (mapDelete st cid) :=
  fun p hp => h p (mem_mapDelete st cid p hp)

theorem chainInv_failStep (chainR : WorkflowChain) (idx : Nat)
    (stepF : WorkflowChainStep)
    (hidx : idx < chainR.steps.length)
    (hcur : chainR.currentStepIndex = idx)
    (hP2 : ∀ i, i < idx → ∀ s, chainR.steps[i]? = some s → s.outputs ≠ none) :
    chainInv { chainR with
      steps := chainR.steps.set idx stepF
      status := StepStatus.failed } := by
  refine ⟨?_, ?_, ?_⟩
  · show chainR.currentStepIndex ≤ (chainR.steps.set idx stepF).length
    rw [List.length_set, hcur]
    exact Nat.le_of_lt hidx
  · show StepStatus.failed = StepStatus.completed ↔ _
    constructor
    · intro hcc; cases hcc
    · rintro ⟨h1, _⟩
      have h1' : chainR.currentStepIndex = (chainR.steps.set idx stepF).length := h1
      rw [List.length_set, hcur] at h1'
      exact absurd h1' (Nat.ne_of_lt hidx)
  · show ∀ i, i < chainR.currentStepIndex →
      ∀ s, (chainR.steps.set idx stepF)[i]? = some s → s.outputs ≠ none
    intro i hi s hsi
    rw [hcur] at hi
    rw [List.getElem?_set_ne (Nat.ne_of_lt hi).symm] at hsi
    exact hP2 i hi s hsi

theorem chainInv_completeStep (chainR : WorkflowChain) (idx : Nat)
    (stepC : WorkflowChainStep) (hout : stepC.outputs ≠ none)
    (hidx : idx < chainR.steps.length)
    (hP2 : ∀ i, i < idx → ∀ s, chainR.steps[i]? = some s → s.outputs ≠ none) :
    chainInv { chainR with
      steps := chainR.steps.set idx stepC
      currentStepIndex := idx + 1
      status := if chainR.steps.length ≤ idx + 1 then StepStatus.completed
                else StepStatus.pending } := by
  refine ⟨?_, ?_, ?_⟩
  · show idx + 1 ≤ (chainR.steps.set idx stepC).length
    rw [List.length_set]
    omega
  · show (if chainR.steps.length ≤ idx + 1 then StepStatus.completed
        else StepStatus.pending) = StepStatus.completed ↔
        (idx + 1 = (chainR.steps.set idx stepC).length ∧
          chainR.steps.set idx stepC ≠ [])
    rw [List.length_set]
    by_cases hlen : chainR.steps.length ≤ idx + 1
    · rw [if_pos hlen]
      constructor
      · intro _
        refine ⟨by omega, ?_⟩
        intro hnil
        have hlen0 : chainR.steps.length = 0 := by
          have h2 := congrArg List.length hnil
          rw [List.length_set] at h2
          exact h2
        omega
      · intro _; rfl
    · rw [if_neg hlen]
      constructor
      · intro hcc; cases hcc
      · rintro ⟨h1, _⟩
        omega
  · show ∀ i, i < idx + 1 →
      ∀ s, (chainR.steps.set idx stepC)[i]? = some s → s.outputs ≠ none
    intro i hi s hsi
    by_cases hie : i = idx
    · subst hie
      rw [List.getElem?_set_self hidx] at hsi
      cases hsi
      exact hout
    · have hilt : i < idx := by omega
      rw [List.getElem?_set_ne (fun hh => hie hh.symm)] at hsi
      exact hP2 i hilt s hsi

theorem stInv_runEvents (st : Chains) (cid : String) (chainR : WorkflowChain)
    (idx : Nat) (stepR : WorkflowChainStep) (h : stInv st)
    (hidx : idx < chainR.steps.length)
    (hcur : chainR.currentStepIndex = idx)
    (hst : chainR.status = StepStatus.running)
    (hP2 : ∀ i, i < idx → ∀ s, chainR.steps[i]? = some s → s.outputs ≠ none) :
    ∀ (events : List Event) (acc : Obj),
      stInv (runEvents st cid chainR idx stepR acc events).1 := by
  intro events acc
  rw [runEvents_eq_collect]
  cases hc : collectNodeOutputs acc events with
  | mk a fp =>
    cases fp with
    | none =>
      have hle : chainR.currentStepIndex ≤ chainR.steps.length := by
        rw [hcur]; exact Nat.le_of_lt hidx
      refine stInv_mapSet _ _ _ h ⟨hle, ?_, ?_⟩
      · rw [hst, hcur]
        constructor
        · intro hcc; cases hcc
        · rintro ⟨h1, _⟩
          exact absurd h1 (Nat.ne_of_lt hidx)
      · intro i hi s hsi
        rw [hcur] at hi
        exact hP2 i hi s hsi
    | some p =>
      simp only [finishStep]
      cases hfe : finishErrorVal p with
      | some e =>
        exact stInv_mapSet _ _ _ h (chainInv_failStep chainR idx _ hidx hcur hP2)
      | none =>
        exact stInv_mapSet _ _ _ h
          (chainInv_completeStep chainR idx _ (fun hh => Option.noConfusion hh) hidx hP2)

theorem stInv_execute (st : Chains) (cid : String) (mods : Option Obj)
    (resp : InvokeResponse) (h : stInv st) :
    stInv (executeNextStep st cid mods resp).1 := by
  cases hg : mapGet st cid with
  | none =>
    simp only [executeNextStep, hg]
    exact h
  | some chain =>
    cases hs : chain.steps[chain.currentStepIndex]? with
    | none =>
      simp only [executeNextStep, hg, hs]
      exact h
    | some step0 =>
      have hinv : chainInv chain := by
        rcases mapGet_mem st cid chain hg with ⟨k, hk⟩
        exact h (k, chain) hk
      have hidx : chain.currentStepIndex < chain.steps.length := by
        rcases List.getElem?_eq_some_iff.mp hs with ⟨hl, _⟩
        exact hl
      have hP2R : ∀ i, i < chain.currentStepIndex → ∀ s,
          (chain.steps.set chain.currentStepIndex
            { withMods step0 mods with status := StepStatus.running })[i]? = some s →
          s.outputs ≠ none := by
        intro i hi s hsi
        rw [List.getElem?_set_ne (Nat.ne_of_lt hi).symm] at hsi
        exact hinv.2.2 i hi s hsi
      have hidxR : chain.currentStepIndex <
          (chain.steps.set chain.currentStepIndex
            { withMods step0 mods with status := StepStatus.running }).length := by
        rw [List.length_set]
        exact hidx
      rw [executeNextStep_spec st cid mods resp chain step0 hg hs]
      simp only
      cases hex : executeCustomWorkflow
          (resolveInputs (chain.currentStepIndex == 0) (withMods step0 mods).inputs
            (prevOutputsOf chain) (withMods step0 mods).userModifications) resp with
      | error m =>
        refine stInv_mapSet _ _ _ h ?_
        exact chainInv_failStep
          { chain with
            steps := chain.steps.set chain.currentStepIndex
              { withMods step0 mods with status := StepStatus.running }
            status := StepStatus.running }
          chain.currentStepIndex
          { withMods step0 mods with status := StepStatus.failed }
          hidxR rfl hP2R
      | ok events =>
        exact stInv_runEvents st cid
          { chain with
            steps := chain.steps.set chain.currentStepIndex
              { withMods step0 mods with status := StepStatus.running }
            status := StepStatus.running }
          chain.currentStepIndex
          { withMods step0 mods with status := StepStatus.running }
          h hidxR rfl rfl hP2R events []

theorem stInv_applyOp (st : Chains) (op : Op) (h : stInv st) :
    stInv (applyOp st op) := by
  cases op with
  | create id nm defs => exact stInv_create st id nm defs h
  | execute cid mods resp => exact stInv_execute st cid mods resp h
  | reset cid => exact stInv_reset st cid h
  | remove cid => exact stInv_delete st cid h
  | queryCurrent cid => exact h
  | queryCompleted cid => exact h
  | queryNext cid => exact h
  | queryGet cid => exact h
  | queryAll => exact h

theorem stInv_runOps (ops : List Op) : stInv (runOps ops) := by
  have hgen : ∀ (l : List Op) (st : Chains), stInv st → stInv (l.foldl applyOp st) := by
    intro l
    induction l with
    | nil => intro st h; exact h
    | cons op l' ih =>
      intro st h
      exact ih _ (stInv_applyOp st op h)
  exact hgen ops [] (fun p hp => absurd hp (List.not_mem_nil p))

/-! ### Facts about `buildSteps`, used for the `createChain` claim -/

theorem buildSteps_map_status (id : String) (ds : List StepDef) :
    ∀ i : Nat, (buildSteps id i ds).map (fun s => s.status)
      = ds.map (fun _ => StepStatus.pending) := by
  induction ds with
  | nil => intro i; rfl
  | cons d ds ih =>
    intro i
    simp only [buildSteps, List.map_cons, ih (i + 1)]
    rfl

theorem buildSteps_map_id (id : String) (ds : List StepDef) :
    ∀ i : Nat, (buildSteps id i ds).map (fun s => s.id)
      = (List.range ds.length).map (fun j => id ++ "-step-" ++ toString (i + j)) := by
  induction ds with
  | nil => intro i; rfl
  | cons d ds ih =>
    intro i
    simp only [buildSteps, List.map_cons, List.length_cons, List.range_succ_eq_map,
      List.map_map]
    refine congrArg₂ List.cons ?_ ?_
    · show id ++ "-step-" ++ toString i = id ++ "-step-" ++ toString (i + 0)
      rw [Nat.add_zero]
    · rw [ih (i + 1)]
      apply List.map_congr_left
      intro j hj
      show id ++ "-step-" ++ toString (i + 1 + j) = id ++ "-step-" ++ toString (i + (j + 1))
      have harith : i + 1 + j = i + (j + 1) := by omega
      rw [harith]

/-! ### The claims -/

/-- C8: for every record stream and every way of splitting its characters
into chunks (splits in the middle of a line included), the decoder produces
the same sequence of callback invocations — same events, same order, same
payloads — as when the whole stream arrives in one chunk, because the
trailing incomplete line is buffered and prepended to the next chunk before
re-splitting. -/
theorem decoder_chunk_invariance (chunks : List (List Char)) :
    decodeEvents chunks = decodeEvents [chunks.flatten] := by
  cases chunks with
  | nil => rfl
  | cons c cs => exact runDecoder_join cs c []

/-- C9: `createChain` never fails: for every prior registry state — an
existing chain under the same id included — it stores and returns a fresh
chain under that id (silently overwriting), with all steps `pending`, step
ids `<chainId>-step-<index>`, cursor `0` and chain status `pending`; no
`DuplicateChainError` exists in the code. -/
theorem createChain_total_overwrite (st : Chains) (id nm : String)
    (defs : List StepDef) :
    mapGet (createChain st id nm defs).1 id = some (createChain st id nm defs).2 ∧
    (createChain st id nm defs).2.id = id ∧
    (createChain st id nm defs).2.name = nm ∧
    (createChain st id nm defs).2.currentStepIndex = 0 ∧
    (createChain st id nm defs).2.status = StepStatus.pending ∧
    (createChain st id nm defs).2.steps.map (fun s => s.status)
      = defs.map (fun _ => StepStatus.pending) ∧
    (createChain st id nm defs).2.steps.map (fun s => s.id)
      = (List.range defs.length).map (fun j => id ++ "-step-" ++ toString j) := by
  refine ⟨mapGet_mapSet_self st id _, rfl, rfl, rfl, rfl, ?_, ?_⟩
  · exact buildSteps_map_status id defs 0
  · rw [show (createChain st id nm defs).2.steps = buildSteps id 0 defs from rfl,
      buildSteps_map_id id defs 0]
    apply List.map_congr_left
    intro j hj
    rw [Nat.zero_add]

/-- C1 (code bug): a `data:` line whose payload has `event: 'error'` does NOT
fail the decode — the `throw new Error(data.message || ...)` of the `'error'`
case sits inside the per-line `try`, so the surrounding
`catch (parseError)` swallows it as a parse warning and the loop continues
with the next line.  On the concrete stream below the error line is followed
by a `workflow_finished` line, and the decode consumes it and completes
successfully instead of rejecting with `UpstreamError("boom")`. -/
theorem error_event_swallowed_decode_completes :
    decodeEvents
        [("data: \x7b\"event\":\"error\",\"message\":\"boom\"\x7d\ndata: \x7b\"event\":\"workflow_finished\",\"data\":\x7b\"outputs\":\x7b\"k\":\"v\"\x7d\x7d\x7d\n").toList]
      = [Event.workflowFinished (Json.obj [("event", Json.str "workflow_finished"),
          ("data", Json.obj [("outputs", Json.obj [("k", Json.str "v")])])])] := by
  rfl

/-- C6 (counterexample): a chain created with an empty step list is stored
with `currentStepIndex = steps.length` (both `0`) while its status is
`pending`, not `completed` — refuting the claimed equivalence
`currentStepIndex == steps.length ↔ status == 'completed'` for that stored
chain. -/
theorem empty_chain_breaks_completed_iff :
    (createChain [] "c" "Empty" []).2.currentStepIndex
      = (createChain [] "c" "Empty" []).2.steps.length ∧
    (createChain [] "c" "Empty" []).2.status ≠ StepStatus.completed ∧
    mapGet (runOps [Op.create "c" "Empty" []]) "c"
      = some (createChain [] "c" "Empty" []).2 := by
  refine ⟨rfl, ?_, rfl⟩
  intro hcc
  cases hcc

/-- C6 (amended): after any sequence of createChain, executeNextStep,
resetChain, deleteChain and query operations, every stored chain satisfies
`0 ≤ currentStepIndex ≤ steps.length`, and
`currentStepIndex = steps.length` holds exactly when the chain's status is
`'completed'` — provided the chain's step list is nonempty; a chain created
with an empty step list keeps status `pending` at cursor `0 = length`
forever. -/
theorem cursor_status_invariant (ops : List Op) (p : String × WorkflowChain)
    (hp : p ∈ runOps ops) :
    p.2.currentStepIndex ≤ p.2.steps.length ∧
    (p.2.status = StepStatus.completed ↔
      (p.2.currentStepIndex = p.2.steps.length ∧ p.2.steps ≠ [])) := by
  have h := stInv_runOps ops p hp
  exact ⟨h.1, h.2.1⟩

theorem cursor_status_invariant_witness :
    (createChain [] "c" "n" []).2.currentStepIndex
        ≤ (createChain [] "c" "n" []).2.steps.length ∧
    ((createChain [] "c" "n" []).2.status = StepStatus.completed ↔
      ((createChain [] "c" "n" []).2.currentStepIndex
          = (createChain [] "c" "n" []).2.steps.length ∧
        (createChain [] "c" "n" []).2.steps ≠ [])) :=
  cursor_status_invariant [Op.create "c" "n" []]
    ("c", (createChain [] "c" "n" []).2) (List.Mem.head _)

/-- C3 (counterexample): with `second_input` declared and the previous
outputs carrying `agent_output` PRESENT but equal to the empty string, the
code leaves `second_input` at its default instead of copying the present
`agent_output` — the source dispatches on JS truthiness, not on presence. -/
theorem second_input_presence_refuted :
    hasKey [("agent_output", Json.str "")] "agent_output" = true ∧
    objGet [("agent_output", Json.str "")] "agent_output" = some (Json.str "") ∧
    objGet (resolveInputs false [("second_input", Json.str "default")]
        (some [("agent_output", Json.str "")]) none) "second_input"
      = some (Json.str "default") ∧
    Json.str "default" ≠ Json.str "" := by
  refine ⟨rfl, rfl, rfl, ?_⟩
  simp

/-- C3 (amended): for a non-first step whose default-input map declares the
generic chaining slot `second_input` and no named slots, when the previous
step has an outputs object and the user modifications do not bind
`second_input`: the effective `second_input` is the previous outputs'
`agent_output` if that value is truthy (present and non-empty); otherwise
`current_de_op_output` if truthy; otherwise the slot keeps its default value,
and the resolution never fails. -/
theorem second_input_truthy_chaining (inputs po : Obj) (mods : Option Obj)
    (h1 : hasKey inputs "competitor_input" = false)
    (h2 : hasKey inputs "current_de_op_input" = false)
    (h3 : hasKey inputs "second_input" = true)
    (h4 : hasKey (mods.getD []) "second_input" = false) :
    objGet (resolveInputs false inputs (some po) mods) "second_input" =
      (if optTruthy (objGet po "agent_output") then objGet po "agent_output"
       else if optTruthy (objGet po "current_de_op_output") then
         objGet po "current_de_op_output"
       else objGet inputs "second_input") := by
  have hm : objGet (mods.getD []) "second_input" = none :=
    objGet_eq_none_of_hasKey_false _ _ h4
  by_cases t1 : optTruthy (objGet po "agent_output") = true
  · rcases ht : objGet po "agent_output" with _ | w
    · rw [ht] at t1; simp [optTruthy] at t1
    · rw [ht] at t1
      simp only [resolveInputs, h1, h2, h3, ht, Bool.or_self, Bool.false_eq_true,
        if_false, if_true]
      rw [if_pos t1, if_pos t1, objGet_mergeObj, hm, objGet_setKey]
      simp
  · have t1f : optTruthy (objGet po "agent_output") = false := by
      cases hx : optTruthy (objGet po "agent_output")
      · rfl
      · exact absurd hx t1
    by_cases t2 : optTruthy (objGet po "current_de_op_output") = true
    · rcases ht : objGet po "current_de_op_output" with _ | w
      · rw [ht] at t2; simp [optTruthy] at t2
      · rw [ht] at t2
        simp only [resolveInputs, h1, h2, h3, ht, t1f, Bool.or_self,
          Bool.false_eq_true, if_false, if_true]
        rw [if_pos t2, if_pos t2, objGet_mergeObj, hm, objGet_setKey]
        simp
    · have t2f : optTruthy (objGet po "current_de_op_output") = false := by
        cases hx : optTruthy (objGet po "current_de_op_output")
        · rfl
        · exact absurd hx t2
      simp only [resolveInputs, h1, h2, h3, t1f, t2f, Bool.or_self,
        Bool.false_eq_true, if_false, if_true]
      rw [objGet_mergeObj, hm]
      rfl

theorem second_input_truthy_chaining_witness :
    objGet (resolveInputs false [("second_input", Json.str "default")]
        (some [("agent_output", Json.str "X")]) none) "second_input"
      = some (Json.str "X") :=
  (second_input_truthy_chaining [("second_input", Json.str "default")]
    [("agent_output", Json.str "X")] none rfl rfl rfl rfl).trans rfl

/-- C4 (counterexample): with the named slot `competitor_input` declared and
the previous outputs carrying `agent_output` PRESENT but equal to the empty
string, the code leaves `competitor_input` at its default instead of copying
the present matching field — the source dispatches on JS truthiness, not on
presence. -/
theorem named_slot_presence_refuted :
    hasKey [("agent_output", Json.str "")] "agent_output" = true ∧
    objGet [("agent_output", Json.str "")] "agent_output" = some (Json.str "") ∧
    objGet (resolveInputs false [("competitor_input", Json.str "cdefault")]
        (some [("agent_output", Json.str "")]) none) "competitor_input"
      = some (Json.str "cdefault") ∧
    Json.str "cdefault" ≠ Json.str "" := by
  refine ⟨rfl, rfl, rfl, ?_⟩
  simp

/-- The first (named-slot) assignment of the resolution, characterized at
the lookup level. -/
theorem objGet_namedSlot_first (inputs po : Obj) (k : String) :
    objGet
        (if hasKey inputs "competitor_input" && optTruthy (objGet po "agent_output")
         then setKey inputs "competitor_input" ((objGet po "agent_output").getD .null)
         else inputs) k
      = (if (k == "competitor_input")
            && (hasKey inputs "competitor_input" && optTruthy (objGet po "agent_output"))
         then objGet po "agent_output" else objGet inputs k) := by
  by_cases c1 : (hasKey inputs "competitor_input" && optTruthy (objGet po "agent_output")) = true
  · rw [if_pos c1, objGet_setKey]
    by_cases k2 : "competitor_input" = k
    · rw [if_pos k2]
      subst k2
      rcases ht : objGet po "agent_output" with _ | w
      · rw [ht] at c1; simp [optTruthy] at c1
      · have hc := c1
        rw [Bool.and_eq_true, ht] at hc
        simp [ht, hc.1, hc.2]
    · rw [if_neg k2]
      have hk2 : (k == "competitor_input") = false := by
        cases hx : k == "competitor_input"
        · rfl
        · exact absurd (eq_of_beq hx).symm k2
      simp [hk2]
  · have c1f : (hasKey inputs "competitor_input"
        && optTruthy (objGet po "agent_output")) = false := by
      cases hx : hasKey inputs "competitor_input" && optTruthy (objGet po "agent_output")
      · rfl
      · exact absurd hx c1
    rw [if_neg c1]
    simp [c1f]

/-- C4 (amended): for a non-first step whose default-input map declares the
named slots (`competitor_input` and/or `current_de_op_input`), when the
previous step has an outputs object, resolution copies `agent_output` into a
declared `competitor_input` and `current_de_op_output` into a declared
`current_de_op_input` — each only when the source value is truthy (present
and non-empty); a declared slot whose matching output field is absent or
falsy keeps its default, no other field of the previous outputs is merged,
and keys not bound by user modifications resolve as characterized below
(user modifications, merged last, are the only other influence). -/
theorem named_slot_truthy_chaining (inputs po : Obj) (mods : Option Obj) (k : String)
    (hbr : (hasKey inputs "competitor_input" || hasKey inputs "current_de_op_input") = true)
    (hmk : hasKey (mods.getD []) k = false) :
    objGet (resolveInputs false inputs (some po) mods) k =
      (if (k == "current_de_op_input")
          && (hasKey inputs "current_de_op_input"
              && optTruthy (objGet po "current_de_op_output")) then
        objGet po "current_de_op_output"
      else if (k == "competitor_input")
          && (hasKey inputs "competitor_input" && optTruthy (objGet po "agent_output")) then
        objGet po "agent_output"
      else objGet inputs k) := by
  have hm : objGet (mods.getD []) k = none :=
    objGet_eq_none_of_hasKey_false _ _ hmk
  have hred : objGet (resolveInputs false inputs (some po) mods) k
      = objGet
          (if hasKey inputs "current_de_op_input"
              && optTruthy (objGet po "current_de_op_output")
           then setKey
                  (if hasKey inputs "competitor_input"
                      && optTruthy (objGet po "agent_output")
                   then setKey inputs "competitor_input"
                          ((objGet po "agent_output").getD .null)
                   else inputs)
                  "current_de_op_input" ((objGet po "current_de_op_output").getD .null)
           else
             (if hasKey inputs "competitor_input"
                 && optTruthy (objGet po "agent_output")
              then setKey inputs "competitor_input"
                     ((objGet po "agent_output").getD .null)
              else inputs)) k := by
    cases mods with
    | none =>
      simp only [resolveInputs, hbr, Bool.false_eq_true, if_false, if_true]
    | some u =>
      simp only [resolveInputs, hbr, Bool.false_eq_true, if_false, if_true]
      rw [objGet_mergeObj]
      have hmu : objGet u k = none := hm
      rw [hmu]
      rfl
  rw [hred]
  by_cases c2 : (hasKey inputs "current_de_op_input"
      && optTruthy (objGet po "current_de_op_output")) = true
  · rw [if_pos c2, objGet_setKey]
    by_cases k1 : "current_de_op_input" = k
    · rw [if_pos k1]
      subst k1
      rcases ht : objGet po "current_de_op_output" with _ | w
      · rw [ht] at c2; simp [optTruthy] at c2
      · have hc := c2
        rw [Bool.and_eq_true, ht] at hc
        simp [ht, hc.1, hc.2]
    · rw [if_neg k1]
      have hk1 : (k == "current_de_op_input") = false := by
        cases hx : k == "current_de_op_input"
        · rfl
        · exact absurd (eq_of_beq hx).symm k1
      simp only [hk1, Bool.false_and, Bool.false_eq_true, if_false]
      exact objGet_namedSlot_first inputs po k
  · have c2f : (hasKey inputs "current_de_op_input"
        && optTruthy (objGet po "current_de_op_output")) = false := by
      cases hx : hasKey inputs "current_de_op_input"
          && optTruthy (objGet po "current_de_op_output")
      · rfl
      · exact absurd hx c2
    rw [if_neg c2]
    simp only [c2f, Bool.and_false, Bool.false_eq_true, if_false]
    exact objGet_namedSlot_first inputs po k

/-- In every live branch of the non-first-step resolution with a previous
outputs object present, the stored user-modification map is spread last. -/
theorem resolveInputs_someMods_base (inputs po u : Obj) :
    ∃ base, resolveInputs false inputs (some po) (some u) = mergeObj base u := by
  by_cases g1 : (hasKey inputs "competitor_input"
      || hasKey inputs "current_de_op_input") = true
  · simp only [resolveInputs, g1, Bool.false_eq_true, if_false, if_true]
    exact ⟨_, rfl⟩
  · have g1f : (hasKey inputs "competitor_input"
        || hasKey inputs "current_de_op_input") = false := by
      cases hx : hasKey inputs "competitor_input" || hasKey inputs "current_de_op_input"
      · rfl
      · exact absurd hx g1
    by_cases g2 : hasKey inputs "second_input" = true
    · by_cases t1 : optTruthy (objGet po "agent_output") = true
      · simp only [resolveInputs, g1f, g2, t1, Bool.false_eq_true, if_false, if_true]
        exact ⟨_, rfl⟩
      · have t1f : optTruthy (objGet po "agent_output") = false := by
          cases hx : optTruthy (objGet po "agent_output")
          · rfl
          · exact absurd hx t1
        by_cases t2 : optTruthy (objGet po "current_de_op_output") = true
        · simp only [resolveInputs, g1f, g2, t1f, t2, Bool.false_eq_true,
            if_false, if_true]
          exact ⟨_, rfl⟩
        · have t2f : optTruthy (objGet po "current_de_op_output") = false := by
            cases hx : optTruthy (objGet po "current_de_op_output")
            · rfl
            · exact absurd hx t2
          simp only [resolveInputs, g1f, g2, t1f, t2f, Bool.false_eq_true,
            if_false, if_true]
          exact ⟨_, rfl⟩
    · have g2f : hasKey inputs "second_input" = false := by
        cases hx : hasKey inputs "second_input"
        · rfl
        · exact absurd hx g2
      simp only [resolveInputs, g1f, g2f, Bool.false_eq_true, if_false, if_true]
      exact ⟨_, rfl⟩

/-- C5: in every execution reachable through the manager's operations, when
`executeNextStep` is called with a user-modification map `u`, every key `u`
sets resolves in the effective inputs to `u`'s value — user modifications
are merged last in every live resolution branch (first step, named-slot,
generic-slot, and full-merge), and the branch that skips them (previous step
with no outputs object) is unreachable because the cursor only advances past
steps whose outputs were stored. -/
theorem user_modifications_override (ops : List Op) (cid : String)
    (u eff : Obj) (k : String) (v : Json)
    (hsent : sentInputs (runOps ops) cid (some u) = some eff)
    (hk : objGet u k = some v) :
    objGet eff k = some v := by
  have hinvSt := stInv_runOps ops
  unfold sentInputs at hsent
  cases hg : mapGet (runOps ops) cid with
  | none =>
    rw [hg] at hsent
    simp at hsent
  | some chain =>
    rw [hg] at hsent
    simp only at hsent
    cases hstep : chain.steps[chain.currentStepIndex]? with
    | none =>
      rw [hstep] at hsent
      simp at hsent
    | some step0 =>
      rw [hstep] at hsent
      simp only [withMods] at hsent
      have heff := Option.some.inj hsent
      by_cases hz : (chain.currentStepIndex == 0) = true
      · rw [hz] at heff
        simp only [resolveInputs, if_true] at heff
        rw [← heff, objGet_mergeObj, hk]
        rfl
      · have hzf : (chain.currentStepIndex == 0) = false := by
          cases hx : chain.currentStepIndex == 0
          · rfl
          · exact absurd hx hz
        have hne : chain.currentStepIndex ≠ 0 := by
          intro h0
          rw [h0] at hzf
          simp at hzf
        have hinv : chainInv chain := by
          rcases mapGet_mem _ cid chain hg with ⟨kk, hkk⟩
          exact hinvSt (kk, chain) hkk
        have hlt : chain.currentStepIndex < chain.steps.length := by
          rcases List.getElem?_eq_some_iff.mp hstep with ⟨hl, _⟩
          exact hl
        rcases hgetPrev : chain.steps[chain.currentStepIndex - 1]? with _ | sPrev
        · have hlen := List.getElem?_eq_none_iff.mp hgetPrev
          omega
        have hnn := hinv.2.2 (chain.currentStepIndex - 1) (by omega) sPrev hgetPrev
        rcases hpo : sPrev.outputs with _ | po
        · exact absurd hpo hnn
        · have hprev : prevOutputsOf chain = some po := by
            simp only [prevOutputsOf, hzf, Bool.false_eq_true, if_false]
            rw [hgetPrev]
            exact hpo
          rw [hzf, hprev] at heff
          obtain ⟨base, hb⟩ := resolveInputs_someMods_base step0.inputs po u
          rw [hb] at heff
          rw [← heff, objGet_mergeObj, hk]
          rfl

/-- Setting `currentStep.userModifications = userModifications` changes no other
field of the step. -/
theorem withMods_outputs (s : WorkflowChainStep) (m : Option Obj) :
    (withMods s m).outputs = s.outputs := by
  cases m <;> rfl

/-- C7: whenever an `executeNextStep` invocation fails — the chain and the
current step were found, and the outcome is a rejection (which, given both
hypotheses, arises exactly from a transport error or a `workflow_finished`
event carrying a truthy `data.error`) — the step's and the chain's statuses
become `failed`, the cursor is unchanged, the error is what the caller
receives, and the step's outputs field is not written. -/
theorem failure_no_partial_commit (st : Chains) (cid : String) (mods : Option Obj)
    (resp : InvokeResponse) (chain : WorkflowChain) (step0 : WorkflowChainStep)
    (m : String)
    (hg : mapGet st cid = some chain)
    (hs : chain.steps[chain.currentStepIndex]? = some step0)
    (hx : (executeNextStep st cid mods resp).2 = ExecOutcome.err m) :
    ∃ chain2 stepF,
      mapGet (executeNextStep st cid mods resp).1 cid = some chain2 ∧
      chain2.status = StepStatus.failed ∧
      chain2.currentStepIndex = chain.currentStepIndex ∧
      chain2.steps[chain.currentStepIndex]? = some stepF ∧
      stepF.status = StepStatus.failed ∧
      stepF.outputs = step0.outputs := by
  have hidx : chain.currentStepIndex < chain.steps.length := by
    rcases List.getElem?_eq_some_iff.mp hs with ⟨hl, _⟩
    exact hl
  rw [executeNextStep_spec st cid mods resp chain step0 hg hs] at hx ⊢
  simp only at hx ⊢
  cases hEval : executeCustomWorkflow
      (resolveInputs (chain.currentStepIndex == 0) (withMods step0 mods).inputs
        (prevOutputsOf chain) (withMods step0 mods).userModifications) resp with
  | error m2 =>
    rw [hEval] at hx
    simp only at hx
    refine ⟨_, { withMods step0 mods with status := StepStatus.failed },
      mapGet_mapSet_self st cid _, rfl, rfl, ?_, rfl, withMods_outputs step0 mods⟩
    rw [List.getElem?_set_self (by rw [List.length_set]; exact hidx)]
  | ok events =>
    rw [hEval] at hx
    simp only at hx
    dsimp only
    rw [runEvents_eq_collect] at hx ⊢
    cases hcol : collectNodeOutputs [] events with
    | mk a fp =>
      rw [hcol] at hx
      cases fp with
      | none => simp at hx
      | some p =>
        simp only [finishStep] at hx ⊢
        cases hfe : finishErrorVal p with
        | none =>
          rw [hfe] at hx
          simp at hx
        | some e =>
          refine ⟨_, { withMods step0 mods with status := StepStatus.failed },
            mapGet_mapSet_self st cid _, rfl, rfl, ?_, rfl,
            withMods_outputs step0 mods⟩
          rw [List.getElem?_set_self (by rw [List.length_set]; exact hidx)]

/-- C10: if the streamed body is exhausted without a `workflow_finished`
event having been observed, `executeNextStep` neither resolves nor rejects
— the wrapping promise executor completes without ever calling `resolve` or
`reject` — and the current step and the chain remain in status `running`
with the cursor unchanged and no outputs written. -/
theorem exhausted_stream_hangs (st : Chains) (cid : String) (mods : Option Obj)
    (chunks : List (List Char)) (chain : WorkflowChain) (step0 : WorkflowChainStep)
    (hg : mapGet st cid = some chain)
    (hs : chain.steps[chain.currentStepIndex]? = some step0)
    (hnf : ∀ p, Event.workflowFinished p ∉ decodeEvents chunks) :
    (executeNextStep st cid mods (InvokeResponse.stream chunks)).2
      = ExecOutcome.hang ∧
    ∃ chain2 step2,
      mapGet (executeNextStep st cid mods (InvokeResponse.stream chunks)).1 cid
        = some chain2 ∧
      chain2.status = StepStatus.running ∧
      chain2.currentStepIndex = chain.currentStepIndex ∧
      chain2.steps[chain.currentStepIndex]? = some step2 ∧
      step2.status = StepStatus.running ∧
      step2.outputs = step0.outputs := by
  have hidx : chain.currentStepIndex < chain.steps.length := by
    rcases List.getElem?_eq_some_iff.mp hs with ⟨hl, _⟩
    exact hl
  rw [executeNextStep_spec st cid mods (InvokeResponse.stream chunks) chain step0 hg hs]
  simp only [executeCustomWorkflow]
  rw [runEvents_eq_collect]
  have hcn := collectNodeOutputs_none_of_noFinish (decodeEvents chunks) hnf []
  cases hcol : collectNodeOutputs [] (decodeEvents chunks) with
  | mk a fp =>
    rw [hcol] at hcn
    cases fp with
    | some p => simp at hcn
    | none =>
      refine ⟨rfl, _, { withMods step0 mods with status := StepStatus.running },
        mapGet_mapSet_self st cid _, rfl, rfl, ?_, rfl, withMods_outputs step0 mods⟩
      rw [List.getElem?_set_self hidx]

/-- C2: when a step invocation succeeds, the output map returned in the
`ChainStepResult` — and stored on the step — is the shallow merge of the
accumulated `data.outputs` fragments of the `node_finished` events (later
fragments overwriting earlier ones) with the `data.outputs` map of the
`workflow_finished` event, the latter taking precedence on key collisions
(`Option.or` below reads the `workflow_finished` side first). -/
theorem step_outputs_dual_collection (st : Chains) (cid : String) (mods : Option Obj)
    (chunks : List (List Char)) (chain : WorkflowChain) (step0 : WorkflowChainStep)
    (r : ChainStepResult)
    (hg : mapGet st cid = some chain)
    (hs : chain.steps[chain.currentStepIndex]? = some step0)
    (hx : (executeNextStep st cid mods (InvokeResponse.stream chunks)).2
      = ExecOutcome.ok r) :
    ∃ p, (collectNodeOutputs [] (decodeEvents chunks)).2 = some p ∧
      r.outputs = mergeObj (collectNodeOutputs [] (decodeEvents chunks)).1
        (jspread (finishRawOutputs p)) ∧
      (∀ k, objGet r.outputs k
        = ((objGet (jspread (finishRawOutputs p)) k).or
            (objGet (collectNodeOutputs [] (decodeEvents chunks)).1 k))) ∧
      r.success = true ∧
      ∃ chain2 stepC,
        mapGet (executeNextStep st cid mods (InvokeResponse.stream chunks)).1 cid
          = some chain2 ∧
        chain2.steps[chain.currentStepIndex]? = some stepC ∧
        stepC.outputs = some r.outputs := by
  have hidx : chain.currentStepIndex < chain.steps.length := by
    rcases List.getElem?_eq_some_iff.mp hs with ⟨hl, _⟩
    exact hl
  rw [executeNextStep_spec st cid mods (InvokeResponse.stream chunks) chain step0 hg hs]
    at hx ⊢
  simp only [executeCustomWorkflow] at hx ⊢
  rw [runEvents_eq_collect] at hx ⊢
  cases hcol : collectNodeOutputs [] (decodeEvents chunks) with
  | mk a fp =>
    rw [hcol] at hx
    cases fp with
    | none => simp at hx
    | some p =>
      simp only [finishStep] at hx ⊢
      cases hfe : finishErrorVal p with
      | some e =>
        rw [hfe] at hx
        simp at hx
      | none =>
        rw [hfe] at hx
        simp only at hx
        have hr := ExecOutcome.ok.inj hx
        subst hr
        refine ⟨p, rfl, rfl, ?_, rfl, ?_⟩
        · intro k
          exact objGet_mergeObj a (jspread (finishRawOutputs p)) k
        · refine ⟨_, { withMods step0 mods with
              outputs := some (mergeObj a (jspread (finishRawOutputs p)))
              status := StepStatus.completed },
            mapGet_mapSet_self st cid _, ?_, rfl⟩
          rw [List.getElem?_set_self (by rw [List.length_set]; exact hidx)]

/-! ### Concrete fixtures for the witnesses -/

def exampleDef : StepDef where
  name := "Company Research"
  workflowId := "wf1"
  apiKey := "k1"
  inputs := [("company_name", Json.str "Tesla")]
  allowUserEdit := true

def exampleState : Chains := (createChain [] "c" "Research Chain" [exampleDef]).1

def exampleChain : WorkflowChain := (createChain [] "c" "Research Chain" [exampleDef]).2

def exampleStep : WorkflowChainStep := buildStep "c" 0 exampleDef

/-- A body whose node-level fragment and final aggregate carry different
keys. -/
def exampleChunks : List (List Char) :=
  [("data: \x7b\"event\":\"node_finished\",\"data\":\x7b\"outputs\":\x7b\"agent_output\":\"A\"\x7d\x7d\x7d\ndata: \x7b\"event\":\"workflow_finished\",\"data\":\x7b\"outputs\":\x7b\"current_de_op_output\":\"B\"\x7d\x7d\x7d\n").toList]

/-- Scenario D: a `workflow_finished` event carrying `{error: "boom"}`. -/
def exampleErrChunks : List (List Char) :=
  [("data: \x7b\"event\":\"workflow_finished\",\"data\":\x7b\"error\":\"boom\"\x7d\x7d\n").toList]

def exampleResult : ChainStepResult where
  stepId := "c-step-0"
  outputs := [("agent_output", Json.str "A"), ("current_de_op_output", Json.str "B")]
  success := true

theorem user_modifications_override_witness :
    objGet [("company_name", Json.str "Tesla"), ("extra", Json.str "z")] "extra"
      = some (Json.str "z") :=
  user_modifications_override [Op.create "c" "Research Chain" [exampleDef]] "c"
    [("extra", Json.str "z")]
    [("company_name", Json.str "Tesla"), ("extra", Json.str "z")] "extra"
    (Json.str "z") rfl rfl

theorem failure_no_partial_commit_witness :
    ∃ chain2 stepF,
      mapGet (executeNextStep exampleState "c" none
          (InvokeResponse.stream exampleErrChunks)).1 "c" = some chain2 ∧
      chain2.status = StepStatus.failed ∧
      chain2.currentStepIndex = exampleChain.currentStepIndex ∧
      chain2.steps[exampleChain.currentStepIndex]? = some stepF ∧
      stepF.status = StepStatus.failed ∧
      stepF.outputs = exampleStep.outputs :=
  failure_no_partial_commit exampleState "c" none
    (InvokeResponse.stream exampleErrChunks) exampleChain exampleStep "boom"
    rfl rfl rfl

theorem exhausted_stream_hangs_witness :
    (executeNextStep exampleState "c" none (InvokeResponse.stream [])).2
      = ExecOutcome.hang ∧
    ∃ chain2 step2,
      mapGet (executeNextStep exampleState "c" none (InvokeResponse.stream [])).1 "c"
        = some chain2 ∧
      chain2.status = StepStatus.running ∧
      chain2.currentStepIndex = exampleChain.currentStepIndex ∧
      chain2.steps[exampleChain.currentStepIndex]? = some step2 ∧
      step2.status = StepStatus.running ∧
      step2.outputs = exampleStep.outputs :=
  exhausted_stream_hangs exampleState "c" none [] exampleChain exampleStep rfl rfl
    (fun p h => absurd h (List.not_mem_nil _))

theorem step_outputs_dual_collection_witness :
    ∃ p, (collectNodeOutputs [] (decodeEvents exampleChunks)).2 = some p ∧
      exampleResult.outputs
        = mergeObj (collectNodeOutputs [] (decodeEvents exampleChunks)).1
            (jspread (finishRawOutputs p)) ∧
      (∀ k, objGet exampleResult.outputs k
        = ((objGet (jspread (finishRawOutputs p)) k).or
            (objGet (collectNodeOutputs [] (decodeEvents exampleChunks)).1 k))) ∧
      exampleResult.success = true ∧
      ∃ chain2 stepC,
        mapGet (executeNextStep exampleState "c" none
            (InvokeResponse.stream exampleChunks)).1 "c" = some chain2 ∧
        chain2.steps[exampleChain.currentStepIndex]? = some stepC ∧
        stepC.outputs = some exampleResult.outputs :=
  step_outputs_dual_collection exampleState "c" none exampleChunks exampleChain
    exampleStep exampleResult rfl rfl rfl

theorem named_slot_truthy_chaining_witness :
    objGet (resolveInputs false
        [("competitor_input", Json.str "d1"), ("current_de_op_input", Json.str "d2")]
        (some [("agent_output", Json.str "Y")]) none) "competitor_input"
      = some (Json.str "Y") ∧
    objGet (resolveInputs false
        [("competitor_input", Json.str "d1"), ("current_de_op_input", Json.str "d2")]
        (some [("agent_output", Json.str "Y")]) none) "current_de_op_input"
      = some (Json.str "d2") :=
  ⟨(named_slot_truthy_chaining
      [("competitor_input", Json.str "d1"), ("current_de_op_input", Json.str "d2")]
      [("agent_output", Json.str "Y")] none "competitor_input" rfl rfl).trans rfl,
   (named_slot_truthy_chaining
      [("competitor_input", Json.str "d1"), ("current_de_op_input", Json.str "d2")]
      [("agent_output", Json.str "Y")] none "current_de_op_input" rfl rfl).trans rfl⟩

end WChain
